import Mathlib

/-!
Verification development for `torch_fourier_rescale/fourier_rescale_2d.py`.

The bookkeeping logic of the source (frequency grids, argmin selection,
boolean-mask cropping, zero padding, per-axis dispatch, spacing arithmetic)
is embedded over `List`s with exact rational frequencies.  The heavy FFT
calls (`torch.fft.fftshift`, `rfftn`, `irfftn`, ...) are delegated by the
source to the external tensor runtime and are therefore modelled as opaque
fields of an `FFTRuntime` structure; everything computed by the repository
itself is embedded concretely.
-/

/-- Spacing argument: a scalar or an `(h, w)` pair, as in the Python
signature `float | tuple[float, float]`. -/
abbrev Spacing : Type := ℚ ⊕ (ℚ × ℚ)

/-- The scalar-broadcast normalization performed at the top of
`fourier_rescale_2d`: `if isinstance(s, int | float): s = (s, s)`. -/
def normalizeSpacing : Spacing → ℚ × ℚ
  | Sum.inl s => (s, s)
  | Sum.inr p => p

/-- `torch.fft.fftshift(torch.fft.fftfreq(N))`: the centered frequency grid
`[(0 - N//2)/N, ..., (N - 1 - N//2)/N]`. -/
def fftfreqShifted (N : ℕ) : List ℚ :=
  (List.range N).map (fun (i : ℕ) => ((((i : ℤ) - ((N / 2 : ℕ) : ℤ)) : ℤ) : ℚ) / (N : ℚ))

/-- `custom_fftfreq_with_double_zero` from the source: shifted `fftfreq`,
with an extra zero inserted at `mid_idx = len(freqs) // 2` and the first
(most negative) entry removed. -/
def custom_fftfreq_with_double_zero (N : ℕ) : List ℚ :=
  let freqs := fftfreqShifted N
  let mid_idx := freqs.length / 2
  ((freqs.take mid_idx ++ [0] ++ freqs.drop mid_idx)).drop 1

/-- `torch.fft.rfftfreq(N)`: the non-negative half-spectrum grid
`[0/N, 1/N, ..., (N//2)/N]` of length `N//2 + 1`. -/
def rfftfreq (N : ℕ) : List ℚ :=
  (List.range (N / 2 + 1)).map (fun (i : ℕ) => (i : ℚ) / (N : ℚ))

/-- `torch.argmin` on a 1-D list: index of the first minimal element
(lowest-index tie-break). -/
def listArgmin : List ℚ → ℕ
  | [] => 0
  | [_] => 0
  | x :: y :: ys =>
    let j := listArgmin (y :: ys)
    if x ≤ (y :: ys).getD j 0 then 0 else j + 1

/-- Boolean-mask selection along a list, the model of tensor indexing with a
boolean index tensor (`dft[..., idx, :]` / `dft[..., :, idx]`). -/
def applyMask {α : Type} : List Bool → List α → List α
  | true :: ms, x :: xs => x :: applyMask ms xs
  | false :: ms, _ :: xs => applyMask ms xs
  | _, _ => []

/-- `torch.nn.functional.pad` on the front of an axis: a non-negative amount
prepends that many copies of the fill element, a negative amount removes
entries from the front. -/
def padStart {α : Type} (p : ℤ) (z : α) (l : List α) : List α :=
  if 0 ≤ p then List.replicate p.toNat z ++ l else l.drop (-p).toNat

/-- `torch.nn.functional.pad` on the back of an axis: a non-negative amount
appends that many copies of the fill element, a negative amount removes
entries from the back. -/
def padEnd {α : Type} (p : ℤ) (z : α) (l : List α) : List α :=
  if 0 ≤ p then l ++ List.replicate p.toNat z else l.take (l.length - (-p).toNat)

/-- `_fourier_crop_h` from the source: build the duplicate-zero height grid,
take the grid value nearest `target_fftfreq` as the new Nyquist, and keep the
rows whose absolute frequency is strictly below it. -/
def _fourier_crop_h {α : Type} (dft : List (List α)) (image_height : ℕ)
    (target_fftfreq : ℚ) : List (List α) × ℚ :=
  let frequencies := custom_fftfreq_with_double_zero image_height
  let idx_nyquist := listArgmin (frequencies.map (fun f => |f - target_fftfreq|))
  let new_nyquist := frequencies.getD idx_nyquist 0
  let idx_h := frequencies.map (fun f => decide (|f| < new_nyquist))
  (applyMask idx_h dft, new_nyquist)

/-- `_fourier_crop_w` from the source: nearest value of `rfftfreq(w)` as the
new Nyquist, keeping the columns with frequency `≤` the new Nyquist. -/
def _fourier_crop_w {α : Type} (dft : List (List α)) (image_width : ℕ)
    (target_fftfreq : ℚ) : List (List α) × ℚ :=
  let frequencies := rfftfreq image_width
  let idx_nyquist := listArgmin (frequencies.map (fun f => |f - target_fftfreq|))
  let new_nyquist := frequencies.getD idx_nyquist 0
  let idx_w := frequencies.map (fun f => decide (f ≤ new_nyquist))
  (dft.map (fun row => applyMask idx_w row), new_nyquist)

/-- `_fourier_pad_h` from the source: idx_nyquist is `target / (1/h)`
rounded by "ceiling if even else floor"; `pad_h = idx_nyquist -
(dft.shape[-2] // 2 + 1 - 1)` zero rows are inserted on both ends
(`F.pad(dft, (0, 0, pad_h, pad_h))`). -/
def _fourier_pad_h {α : Type} [Zero α] (dft : List (List α)) (image_height : ℕ)
    (target_fftfreq : ℚ) : List (List α) × ℚ :=
  let delta_fftfreq : ℚ := 1 / (image_height : ℚ)
  let idx_raw : ℚ := target_fftfreq / delta_fftfreq
  let idx_nyquist : ℤ := if (⌈idx_raw⌉ : ℤ) % 2 = 0 then ⌈idx_raw⌉ else ⌊idx_raw⌋
  let new_nyquist : ℚ := (idx_nyquist : ℚ) * delta_fftfreq
  let n_frequencies : ℤ := ((dft.length / 2 : ℕ) : ℤ) + 1
  let pad_h : ℤ := idx_nyquist - (n_frequencies - 1)
  let zero_row : List α := List.replicate (dft.headD []).length 0
  (padEnd pad_h zero_row (padStart pad_h zero_row dft), new_nyquist)

/-- `_fourier_pad_w` from the source: same rounding rule; `pad_w =
idx_nyquist - (dft.shape[-1] - 1)` zero columns are appended on the
high-frequency end only (`F.pad(dft, (0, pad_w))`). -/
def _fourier_pad_w {α : Type} [Zero α] (dft : List (List α)) (image_width : ℕ)
    (target_fftfreq : ℚ) : List (List α) × ℚ :=
  let delta_fftfreq : ℚ := 1 / (image_width : ℚ)
  let idx_raw : ℚ := target_fftfreq / delta_fftfreq
  let idx_nyquist : ℤ := if (⌈idx_raw⌉ : ℤ) % 2 = 0 then ⌈idx_raw⌉ else ⌊idx_raw⌋
  let new_nyquist : ℚ := (idx_nyquist : ℚ) * delta_fftfreq
  let n_frequencies : ℤ := ((dft.headD []).length : ℤ)
  let pad_w : ℤ := idx_nyquist - (n_frequencies - 1)
  (dft.map (fun row => padEnd pad_w (0 : α) row), new_nyquist)

/-- Modelled from the spec: the spacing collaborator `get_target_fftfreq`
lives in `utils.py`, which is not part of the provided source tree.  Per §6
of the spec it converts a source/target spacing pair into per-axis
fractional frequencies via `spacing_ratio / 2`-style arithmetic (source 1.0
to target 2.0 gives 0.25, source 1.0 to target 0.5 gives 1.0). -/
def get_target_fftfreq (source_spacing target_spacing : ℚ × ℚ) : ℚ × ℚ :=
  ((source_spacing.1 / target_spacing.1) / 2, (source_spacing.2 / target_spacing.2) / 2)

/-- `fourier_rescale_rfft_2d` from the source: derive the per-axis target
frequencies, then pad the height axis if `freq_h > 0.5` else crop it, and
independently pad the width axis if `freq_w > 0.5` else crop it. -/
def fourier_rescale_rfft_2d {α : Type} [Zero α] (dft : List (List α))
    (image_shape : ℕ × ℕ) (source_spacing target_spacing : ℚ × ℚ) :
    List (List α) × (ℚ × ℚ) :=
  let h := image_shape.1
  let w := image_shape.2
  let fq := get_target_fftfreq source_spacing target_spacing
  let r1 := if (1 : ℚ) / 2 < fq.1
    then _fourier_pad_h dft h fq.1 else _fourier_crop_h dft h fq.1
  let r2 := if (1 : ℚ) / 2 < fq.2
    then _fourier_pad_w r1.1 w fq.2 else _fourier_crop_w r1.1 w fq.2
  (r2.1, (r1.2, r2.2))

/-- Modelled from the spec: per §5 all heavy numeric work (the
forward/inverse transforms and the shifts, i.e. the `torch.fft.*` calls) is
delegated to the external tensor runtime, so those calls are opaque fields
here.  `shape2` returns the trailing `(h, w)` of an image
(`image.shape[-2:]`). -/
structure FFTRuntime (Img : Type) (α : Type) where
  fftshift2 : Img → Img
  rfftn : Img → List (List α)
  fftshift_h : List (List α) → List (List α)
  shape2 : Img → ℕ × ℕ
  ifftshift_h : List (List α) → List (List α)
  irfftn : List (List α) → Img
  ifftshift2 : Img → Img

/-- `fourier_rescale_2d` from the source: normalize scalar spacings, return
the input unchanged when the normalized spacings are equal, otherwise
shift/transform, crop or pad per axis, transform back, and report the new
spacing `1 / (2 * new_nyquist * (1 / source_spacing))` per axis. -/
def fourier_rescale_2d {Img α : Type} [Zero α] (R : FFTRuntime Img α)
    (image : Img) (source_spacing target_spacing : Spacing) : Img × (ℚ × ℚ) :=
  let src := normalizeSpacing source_spacing
  let tgt := normalizeSpacing target_spacing
  if src = tgt then (image, src)
  else
    let image' := R.fftshift2 image
    let dft0 := R.rfftn image'
    let dft1 := R.fftshift_h dft0
    let res := fourier_rescale_rfft_2d dft1 (R.shape2 image') src tgt
    let dft2 := R.ifftshift_h res.1
    let rescaled := R.ifftshift2 (R.irfftn dft2)
    (rescaled,
      (1 / (2 * res.2.1 * (1 / src.1)), 1 / (2 * res.2.2 * (1 / src.2))))

/-- A concrete runtime instance over rational matrices, used to evaluate the
orchestrator on explicit inputs: the transform fields are identities and
`shape2` reads the list dimensions. -/
def idRuntime : FFTRuntime (List (List ℚ)) ℚ where
  fftshift2 := fun x => x
  rfftn := fun x => x
  fftshift_h := fun x => x
  shape2 := fun x => (x.length, (x.headD []).length)
  ifftshift_h := fun x => x
  irfftn := fun x => x
  ifftshift2 := fun x => x

theorem length_fftfreqShifted (N : ℕ) : (fftfreqShifted N).length = N := by
  simp [fftfreqShifted]

theorem length_custom_fftfreq (N : ℕ) :
    (custom_fftfreq_with_double_zero N).length = N := by
  simp [custom_fftfreq_with_double_zero, length_fftfreqShifted]
  omega

theorem getD_map_of_lt {α β : Type} (f : α → β) (l : List α) (i : ℕ)
    (h : i < l.length) (d : β) (d' : α) :
    (l.map f).getD i d = f (l.getD i d') := by
  induction l generalizing i with
  | nil => simp at h
  | cons x xs ih =>
    cases i with
    | zero => simp
    | succ n => simpa using ih n (by simpa using h)

theorem getD_mem_of_lt {α : Type} (l : List α) (i : ℕ) (h : i < l.length)
    (d : α) : l.getD i d ∈ l := by
  induction l generalizing i with
  | nil => simp at h
  | cons x xs ih =>
    cases i with
    | zero => simp
    | succ n => exact List.mem_cons_of_mem _ (ih n (by simpa using h))

theorem exists_getD_of_mem {α : Type} (l : List α) (a d : α) (h : a ∈ l) :
    ∃ i, i < l.length ∧ l.getD i d = a := by
  induction l with
  | nil => simp at h
  | cons x xs ih =>
    rcases List.mem_cons.1 h with rfl | hx
    · exact ⟨0, by simp, by simp⟩
    · obtain ⟨i, hi, hg⟩ := ih hx
      exact ⟨i + 1, by simpa using hi, by simpa using hg⟩

theorem listArgmin_lt_length (l : List ℚ) (h : l ≠ []) :
    listArgmin l < l.length := by
  induction l with
  | nil => simp at h
  | cons x xs ih =>
    cases xs with
    | nil => simp [listArgmin]
    | cons y ys =>
      have hlt := ih (by simp)
      simp only [listArgmin]
      split
      · simp
      · simpa using Nat.succ_lt_succ hlt

theorem listArgmin_le_getD (l : List ℚ) (i : ℕ) (hi : i < l.length) :
    l.getD (listArgmin l) 0 ≤ l.getD i 0 := by
  induction l generalizing i with
  | nil => simp at hi
  | cons x xs ih =>
    cases xs with
    | nil =>
      have : i = 0 := by simpa using Nat.lt_one_iff.1 (by simpa using hi)
      subst this
      simp [listArgmin]
    | cons y ys =>
      simp only [listArgmin]
      split
      · rename_i hle
        cases i with
        | zero => simp
        | succ n =>
          have := ih n (by simpa using hi)
          simp only [List.getD_cons_zero, List.getD_cons_succ]
          exact le_trans hle this
      · rename_i hgt
        push_neg at hgt
        cases i with
        | zero =>
          simp only [List.getD_cons_zero, List.getD_cons_succ]
          exact le_of_lt hgt
        | succ n =>
          have := ih n (by simpa using hi)
          simpa using this

theorem getD_lt_of_lt_listArgmin (l : List ℚ) (i : ℕ) (hi : i < listArgmin l) :
    l.getD (listArgmin l) 0 < l.getD i 0 := by
  induction l generalizing i with
  | nil => simp [listArgmin] at hi
  | cons x xs ih =>
    cases xs with
    | nil => simp [listArgmin] at hi
    | cons y ys =>
      revert hi
      simp only [listArgmin]
      split
      · intro hi; simp at hi
      · rename_i hgt
        push_neg at hgt
        intro hi
        cases i with
        | zero => simpa using hgt
        | succ n =>
          have := ih n (by omega)
          simpa using this

theorem applyMask_map_decide {α : Type} (P : ℚ → Prop) [DecidablePred P]
    (fs : List ℚ) (l : List α) :
    applyMask (fs.map (fun f => decide (P f))) l =
      (l.zip fs).filterMap (fun p => if P p.2 then some p.1 else none) := by
  induction fs generalizing l with
  | nil => cases l <;> simp [applyMask]
  | cons f fs ih =>
    cases l with
    | nil => simp [applyMask]
    | cons x xs =>
      by_cases h : P f <;>
        simp [applyMask, h, ih]

theorem applyMask_of_forall_false {α : Type} (ms : List Bool) (l : List α)
    (h : ∀ b ∈ ms, b = false) : applyMask ms l = [] := by
  induction ms generalizing l with
  | nil => cases l <;> simp [applyMask]
  | cons b bs ih =>
    have hb : b = false := h b (by simp)
    subst hb
    cases l with
    | nil => simp [applyMask]
    | cons x xs => simpa [applyMask] using ih xs (fun c hc => h c (by simp [hc]))

theorem length_padStart {α : Type} (p : ℤ) (z : α) (l : List α) :
    (padStart p z l).length =
      if 0 ≤ p then p.toNat + l.length else l.length - (-p).toNat := by
  unfold padStart
  split <;> simp

theorem length_padEnd {α : Type} (p : ℤ) (z : α) (l : List α) :
    (padEnd p z l).length =
      if 0 ≤ p then l.length + p.toNat else l.length - (-p).toNat := by
  unfold padEnd
  split <;> simp

theorem custom_fftfreq_decomp (N : ℕ) (h : 1 ≤ N / 2) :
    custom_fftfreq_with_double_zero N =
      ((fftfreqShifted N).take ((fftfreqShifted N).length / 2)).drop 1 ++
        0 :: (fftfreqShifted N).drop ((fftfreqShifted N).length / 2) := by
  unfold custom_fftfreq_with_double_zero
  have hlen : 1 ≤ ((fftfreqShifted N).take ((fftfreqShifted N).length / 2)).length := by
    rw [List.length_take, length_fftfreqShifted]
    omega
  cases hA : (fftfreqShifted N).take ((fftfreqShifted N).length / 2) with
  | nil => rw [hA] at hlen; simp at hlen
  | cons a A => simp [hA]

theorem zero_mem_custom_fftfreq (N : ℕ) (h : 1 ≤ N / 2) :
    (0 : ℚ) ∈ custom_fftfreq_with_double_zero N := by
  rw [custom_fftfreq_decomp N h]
  exact List.mem_append_right _ (List.mem_cons_self _ _)

theorem mem_custom_fftfreq (N : ℕ) (f : ℚ) (h : 1 ≤ N / 2)
    (hf : f ∈ custom_fftfreq_with_double_zero N) :
    f = 0 ∨ f ∈ fftfreqShifted N := by
  rw [custom_fftfreq_decomp N h] at hf
  rcases List.mem_append.1 hf with h1 | h2
  · exact Or.inr (List.take_subset _ _ (List.drop_subset _ _ h1))
  · rcases List.mem_cons.1 h2 with h0 | h3
    · exact Or.inl h0
    · exact Or.inr (List.drop_subset _ _ h3)

theorem mem_fftfreqShifted (N : ℕ) (f : ℚ) (hf : f ∈ fftfreqShifted N) :
    ∃ i : ℕ, i < N ∧ f = ((((i : ℤ) - ((N / 2 : ℕ) : ℤ)) : ℤ) : ℚ) / (N : ℚ) := by
  unfold fftfreqShifted at hf
  obtain ⟨i, hi, rfl⟩ := List.mem_map.1 hf
  exact ⟨i, List.mem_range.1 hi, rfl⟩

theorem one_div_le_abs_of_mem_fftfreqShifted (N : ℕ) (hN : 0 < N) (f : ℚ)
    (hf : f ∈ fftfreqShifted N) (h0 : f ≠ 0) : 1 / (N : ℚ) ≤ |f| := by
  obtain ⟨i, _, rfl⟩ := mem_fftfreqShifted N f hf
  set k : ℤ := (i : ℤ) - ((N / 2 : ℕ) : ℤ) with hk
  have hNq : (0 : ℚ) < (N : ℚ) := by exact_mod_cast hN
  have hkne : k ≠ 0 := by
    intro hz
    apply h0
    rw [hz]
    simp
  have h1 : (1 : ℚ) ≤ |(k : ℚ)| := by
    have := Int.one_le_abs hkne
    calc (1 : ℚ) = ((1 : ℤ) : ℚ) := by norm_num
    _ ≤ ((|k| : ℤ) : ℚ) := by exact_mod_cast this
    _ = |(k : ℚ)| := by push_cast; ring_nf
  rw [abs_div, abs_of_pos hNq]
  exact (div_le_div_iff_of_pos_right hNq).2 h1

theorem spacing_formula (s ny : ℚ) : 1 / (2 * ny * (1 / s)) = s / (2 * ny) := by
  rcases eq_or_ne s 0 with hs | hs
  · subst hs
    simp
  · rcases eq_or_ne ny 0 with hn | hn
    · subst hn
      simp
    · field_simp

/-- C1: for every image and spacing argument `s` (scalar or pair),
`fourier_rescale_2d image s s` returns the input image unchanged together
with the normalized source spacing, for any FFT runtime — no transform is
performed. -/
theorem c1_identity {Img α : Type} [Zero α] (R : FFTRuntime Img α)
    (image : Img) (s : Spacing) :
    fourier_rescale_2d R image s s = (image, normalizeSpacing s) := by
  unfold fourier_rescale_2d
  simp

/-- C2: `fourier_rescale_rfft_2d` dispatches each axis independently by the
fixed 0.5 threshold: the height axis is padded iff `freq_h > 1/2` and
cropped otherwise, the width axis is padded iff `freq_w > 1/2` and cropped
otherwise, and the achieved width Nyquist does not depend on the DFT handed
over from the height step. -/
theorem c2_dispatch (dft : List (List ℚ)) (h w : ℕ) (s t : ℚ × ℚ) :
    (fourier_rescale_rfft_2d dft (h, w) s t =
      (let fq := get_target_fftfreq s t
       let hr := if (1 : ℚ) / 2 < fq.1
         then _fourier_pad_h dft h fq.1 else _fourier_crop_h dft h fq.1
       let wr := if (1 : ℚ) / 2 < fq.2
         then _fourier_pad_w hr.1 w fq.2 else _fourier_crop_w hr.1 w fq.2
       (wr.1, (hr.2, wr.2)))) ∧
    (∀ d d' : List (List ℚ),
      (if (1 : ℚ) / 2 < (get_target_fftfreq s t).2
        then _fourier_pad_w d w (get_target_fftfreq s t).2
        else _fourier_crop_w d w (get_target_fftfreq s t).2).2 =
      (if (1 : ℚ) / 2 < (get_target_fftfreq s t).2
        then _fourier_pad_w d' w (get_target_fftfreq s t).2
        else _fourier_crop_w d' w (get_target_fftfreq s t).2).2) := by
  constructor
  · rfl
  · intro d d'
    split <;> simp [_fourier_pad_w, _fourier_crop_w]

/-- C7: when the no-op short-circuit is not taken, the reported output
spacing per axis is `sourceSpacing / (2 * newNyquist)`, where `newNyquist`
is the per-axis Nyquist achieved by the crop/pad stage. -/
theorem c7_new_spacing {Img : Type} (R : FFTRuntime Img ℚ) (image : Img)
    (src tgt : Spacing) (h : normalizeSpacing src ≠ normalizeSpacing tgt) :
    (fourier_rescale_2d R image src tgt).2 =
      ((normalizeSpacing src).1 /
        (2 * (fourier_rescale_rfft_2d (R.fftshift_h (R.rfftn (R.fftshift2 image)))
            (R.shape2 (R.fftshift2 image)) (normalizeSpacing src)
            (normalizeSpacing tgt)).2.1),
       (normalizeSpacing src).2 /
        (2 * (fourier_rescale_rfft_2d (R.fftshift_h (R.rfftn (R.fftshift2 image)))
            (R.shape2 (R.fftshift2 image)) (normalizeSpacing src)
            (normalizeSpacing tgt)).2.2)) := by
  unfold fourier_rescale_2d
  rw [if_neg h]
  simp only [spacing_formula]

/-- C7 witness: a concrete non-short-circuit call on a 2 by 2 image. -/
theorem c7_new_spacing_witness :
    (fourier_rescale_2d idRuntime [[(1 : ℚ), 2], [3, 4]]
        (Sum.inl 1) (Sum.inl 2)).2 =
      ((normalizeSpacing (Sum.inl 1)).1 /
        (2 * (fourier_rescale_rfft_2d
            (idRuntime.fftshift_h (idRuntime.rfftn (idRuntime.fftshift2 [[(1 : ℚ), 2], [3, 4]])))
            (idRuntime.shape2 (idRuntime.fftshift2 [[(1 : ℚ), 2], [3, 4]]))
            (normalizeSpacing (Sum.inl 1)) (normalizeSpacing (Sum.inl 2))).2.1),
       (normalizeSpacing (Sum.inl 1)).2 /
        (2 * (fourier_rescale_rfft_2d
            (idRuntime.fftshift_h (idRuntime.rfftn (idRuntime.fftshift2 [[(1 : ℚ), 2], [3, 4]])))
            (idRuntime.shape2 (idRuntime.fftshift2 [[(1 : ℚ), 2], [3, 4]]))
            (normalizeSpacing (Sum.inl 1)) (normalizeSpacing (Sum.inl 2))).2.2)) :=
  c7_new_spacing idRuntime [[(1 : ℚ), 2], [3, 4]] (Sum.inl 1) (Sum.inl 2)
    (by with_unfolding_all decide)

/-- C9: the code performs no spacing or shape validation.  With a negative
target spacing the orchestrator proceeds into the transform (crop path) and
returns a degenerate result instead of failing with a domain error, and with
a trailing height of 1 it builds the frequency grid and proceeds instead of
failing with a shape error. -/
theorem c9_no_validation :
    fourier_rescale_2d idRuntime [[(1 : ℚ), 2], [3, 4]]
        (Sum.inl 1) (Sum.inl (-1)) = ([], (0, 0)) ∧
    fourier_rescale_2d idRuntime [[(5 : ℚ), 6]]
        (Sum.inl 1) (Sum.inl 2) = ([], (0, 0)) := by
  with_unfolding_all decide

/-- C6 counterexample: for image width `W = 4` and target frequency 1 the
rounded `idxNyquist` is 4 and the incoming half-spectrum has `n = 3` bins;
the code pads by `idxNyquist - (n - 1) = 2`, producing width 5, whereas the
claim's `n = W` formula `idxNyquist - (W - 1) = 1` would produce width 4. -/
theorem c6_counterexample :
    ((_fourier_pad_w [[(1 : ℚ), 0, 0]] 4 1).1.headD []).length = 5 ∧
    (5 : ℤ) ≠ 3 + (4 - (4 - 1)) := by
  with_unfolding_all decide

/-- C8 counterexample: padding the width axis of a 10-wide image (current
half-spectrum length 6) at target frequency 3/5 gives `idxNyquist = 6` and a
resulting width-axis length of 7, which is odd. -/
theorem c8_counterexample :
    ¬ Even (((_fourier_pad_w [[(1 : ℚ), 0, 0, 0, 0, 0]] 10 (3 / 5)).1.headD []).length) := by
  with_unfolding_all decide

theorem even_length_padEnd_padStart {α : Type} (p : ℤ) (z : α) (l : List α)
    (h : Even l.length) : Even ((padEnd p z (padStart p z l)).length) := by
  rw [Nat.even_iff] at h ⊢
  rw [length_padEnd, length_padStart]
  rcases le_or_lt 0 p with hp | hp
  · rw [if_pos hp, if_pos hp]
    omega
  · rw [if_neg (not_le.2 hp), if_neg (not_le.2 hp)]
    omega

/-- C8 (amended): after `_fourier_pad_h` on a DFT whose height axis has even
length, the resulting height-axis length is even.  (The original claim fails
for the single-sided width pad, see the counterexample.) -/
theorem c8_pad_h_even (dft : List (List ℚ)) (H : ℕ) (t : ℚ)
    (h : Even dft.length) : Even ((_fourier_pad_h dft H t).1.length) := by
  exact even_length_padEnd_padStart _ _ dft h

/-- C8 witness: an even-height DFT keeps an even height after padding. -/
theorem c8_pad_h_even_witness :
    Even ((_fourier_pad_h [[(1 : ℚ)], [2]] 2 1).1.length) :=
  c8_pad_h_even [[(1 : ℚ)], [2]] 2 1 (by with_unfolding_all decide)

/-- C5: `_fourier_pad_h` rounds `targetFreq * H` by "ceiling if even, else
floor" to get `idxNyquist`, reports `newNyquist = idxNyquist / H`, and
inserts `padH = idxNyquist - (H//2 + 1 - 1)` zero rows at both the low and
the high end of the height axis (for a DFT whose height axis is `H`, and
when the pad amount is non-negative, which is the dispatch invariant). -/
theorem c5_pad_h_spec (dft : List (List ℚ)) (H : ℕ) (t : ℚ) (idx p : ℤ)
    (hidx : idx = if (⌈t * (H : ℚ)⌉ : ℤ) % 2 = 0 then ⌈t * (H : ℚ)⌉ else ⌊t * (H : ℚ)⌋)
    (hlen : dft.length = H)
    (hp2 : p = idx - ((((H / 2 : ℕ) : ℤ) + 1) - 1))
    (hp : 0 ≤ p) :
    _fourier_pad_h dft H t =
      (List.replicate p.toNat (List.replicate (dft.headD []).length 0) ++ dft ++
         List.replicate p.toNat (List.replicate (dft.headD []).length 0),
       (idx : ℚ) / (H : ℚ)) := by
  have hdiv : t / (1 / (H : ℚ)) = t * (H : ℚ) := by
    rw [one_div, div_eq_mul_inv, inv_inv]
  subst hidx
  subst hp2
  simp only [_fourier_pad_h, hdiv, hlen]
  unfold padStart padEnd
  rw [if_pos hp, if_pos hp]
  rw [mul_one_div]

/-- C5 witness: a 4-row DFT padded at target frequency 1. -/
theorem c5_pad_h_spec_witness :
    _fourier_pad_h [[(1 : ℚ)], [2], [3], [4]] 4 1 =
      ([[0], [0], [1], [2], [3], [4], [0], [0]], 1) := by
  have h := c5_pad_h_spec [[(1 : ℚ)], [2], [3], [4]] 4 1 4 2
    (by with_unfolding_all decide) rfl (by with_unfolding_all decide)
    (by with_unfolding_all decide)
  rw [h]
  with_unfolding_all decide

/-- C6 (amended): `_fourier_pad_w` uses the same rounding rule as the height
pad, pads only the high-frequency end, and the pad amount is
`idxNyquist - (n - 1)` where `n = W//2 + 1` is the current half-spectrum
(last-axis) length of the DFT — not `n = W` as the claim states. -/
theorem c6_pad_w_amended (dft : List (List ℚ)) (W : ℕ) (t : ℚ) (idx p : ℤ)
    (hidx : idx = if (⌈t * (W : ℚ)⌉ : ℤ) % 2 = 0 then ⌈t * (W : ℚ)⌉ else ⌊t * (W : ℚ)⌋)
    (hn : (dft.headD []).length = W / 2 + 1)
    (hp2 : p = idx - (((W / 2 + 1 : ℕ) : ℤ) - 1))
    (hp : 0 ≤ p) :
    _fourier_pad_w dft W t =
      (dft.map (fun row => row ++ List.replicate p.toNat 0), (idx : ℚ) / (W : ℚ)) := by
  have hdiv : t / (1 / (W : ℚ)) = t * (W : ℚ) := by
    rw [one_div, div_eq_mul_inv, inv_inv]
  subst hidx
  subst hp2
  simp only [_fourier_pad_w, hdiv, hn]
  unfold padEnd
  simp only [if_pos hp]
  rw [mul_one_div]

/-- C6 witness: a half-spectrum of length 3 (image width 4) padded at
target frequency 1. -/
theorem c6_pad_w_amended_witness :
    _fourier_pad_w [[(1 : ℚ), 0, 0]] 4 1 = ([[1, 0, 0, 0, 0]], 1) := by
  have h := c6_pad_w_amended [[(1 : ℚ), 0, 0]] 4 1 4 2
    (by with_unfolding_all decide) rfl (by with_unfolding_all decide)
    (by with_unfolding_all decide)
  rw [h]
  with_unfolding_all decide

/-- C3: `_fourier_crop_h` builds the duplicate-zero height grid of length
`H`, picks as the new Nyquist the grid value with minimum absolute
difference to the target frequency (lowest index on ties), and keeps exactly
the height bins whose absolute frequency is strictly below the new
Nyquist. -/
theorem c3_crop_h_spec (dft : List (List ℚ)) (H : ℕ) (t : ℚ)
    (freqs : List ℚ) (j : ℕ) (hH : 0 < H)
    (hfreqs : freqs = custom_fftfreq_with_double_zero H)
    (hj : j = listArgmin (freqs.map (fun f => |f - t|))) :
    freqs.length = H ∧
    (_fourier_crop_h dft H t).2 = freqs.getD j 0 ∧
    j < freqs.length ∧
    (∀ i, i < freqs.length → |(_fourier_crop_h dft H t).2 - t| ≤ |freqs.getD i 0 - t|) ∧
    (∀ i, i < j → |(_fourier_crop_h dft H t).2 - t| < |freqs.getD i 0 - t|) ∧
    (_fourier_crop_h dft H t).1 =
      (dft.zip freqs).filterMap
        (fun p => if |p.2| < (_fourier_crop_h dft H t).2 then some p.1 else none) := by
  subst hfreqs
  subst hj
  have hlen : (custom_fftfreq_with_double_zero H).length = H := length_custom_fftfreq H
  have hne : custom_fftfreq_with_double_zero H ≠ [] := by
    intro h0
    rw [h0] at hlen
    simp at hlen
    omega
  have hmapne : (custom_fftfreq_with_double_zero H).map (fun f => |f - t|) ≠ [] := by
    simpa using hne
  have hjlt : listArgmin ((custom_fftfreq_with_double_zero H).map (fun f => |f - t|)) <
      (custom_fftfreq_with_double_zero H).length := by
    have := listArgmin_lt_length _ hmapne
    rwa [List.length_map] at this
  refine ⟨hlen, rfl, hjlt, ?_, ?_, ?_⟩
  · intro i hi
    have h1 := listArgmin_le_getD
      ((custom_fftfreq_with_double_zero H).map (fun f => |f - t|)) i
      (by rwa [List.length_map])
    rwa [getD_map_of_lt _ _ _ hjlt 0 0, getD_map_of_lt _ _ _ hi 0 0] at h1
  · intro i hi
    have h1 := getD_lt_of_lt_listArgmin
      ((custom_fftfreq_with_double_zero H).map (fun f => |f - t|)) i hi
    rwa [getD_map_of_lt _ _ _ hjlt 0 0,
      getD_map_of_lt _ _ _ (lt_trans hi hjlt) 0 0] at h1
  · exact applyMask_map_decide _ _ dft

/-- C3 witness: a 4-row DFT cropped at target frequency 1/4. -/
theorem c3_crop_h_spec_witness :
    ([(-1 : ℚ)/4, 0, 0, 1/4].length = 4 ∧
    (_fourier_crop_h [[(1 : ℚ)], [2], [3], [4]] 4 (1/4)).2 =
      [(-1 : ℚ)/4, 0, 0, 1/4].getD 3 0 ∧
    3 < [(-1 : ℚ)/4, 0, 0, 1/4].length ∧
    (∀ i, i < [(-1 : ℚ)/4, 0, 0, 1/4].length →
      |(_fourier_crop_h [[(1 : ℚ)], [2], [3], [4]] 4 (1/4)).2 - 1/4| ≤
        |[(-1 : ℚ)/4, 0, 0, 1/4].getD i 0 - 1/4|) ∧
    (∀ i, i < 3 →
      |(_fourier_crop_h [[(1 : ℚ)], [2], [3], [4]] 4 (1/4)).2 - 1/4| <
        |[(-1 : ℚ)/4, 0, 0, 1/4].getD i 0 - 1/4|) ∧
    (_fourier_crop_h [[(1 : ℚ)], [2], [3], [4]] 4 (1/4)).1 =
      ([[(1 : ℚ)], [2], [3], [4]].zip [(-1 : ℚ)/4, 0, 0, 1/4]).filterMap
        (fun p => if |p.2| < (_fourier_crop_h [[(1 : ℚ)], [2], [3], [4]] 4 (1/4)).2
          then some p.1 else none)) :=
  c3_crop_h_spec [[(1 : ℚ)], [2], [3], [4]] 4 (1/4) [(-1 : ℚ)/4, 0, 0, 1/4] 3
    (by norm_num) (by with_unfolding_all decide) (by with_unfolding_all decide)

/-- C4: `_fourier_crop_w` selects the new Nyquist as the closest value of
the non-negative half-spectrum grid of length `W//2 + 1` (lowest index on
ties) and keeps exactly the width bins with frequency less than or equal to
the new Nyquist. -/
theorem c4_crop_w_spec (dft : List (List ℚ)) (W : ℕ) (t : ℚ)
    (freqs : List ℚ) (j : ℕ)
    (hfreqs : freqs = rfftfreq W)
    (hj : j = listArgmin (freqs.map (fun f => |f - t|))) :
    freqs.length = W / 2 + 1 ∧
    (_fourier_crop_w dft W t).2 = freqs.getD j 0 ∧
    j < freqs.length ∧
    (∀ i, i < freqs.length → |(_fourier_crop_w dft W t).2 - t| ≤ |freqs.getD i 0 - t|) ∧
    (∀ i, i < j → |(_fourier_crop_w dft W t).2 - t| < |freqs.getD i 0 - t|) ∧
    (_fourier_crop_w dft W t).1 =
      dft.map (fun row => (row.zip freqs).filterMap
        (fun p => if p.2 ≤ (_fourier_crop_w dft W t).2 then some p.1 else none)) := by
  subst hfreqs
  subst hj
  have hlen : (rfftfreq W).length = W / 2 + 1 := by
    simp [rfftfreq]
  have hne : rfftfreq W ≠ [] := by
    intro h0
    rw [h0] at hlen
    simp at hlen
  have hmapne : (rfftfreq W).map (fun f => |f - t|) ≠ [] := by
    simpa using hne
  have hjlt : listArgmin ((rfftfreq W).map (fun f => |f - t|)) < (rfftfreq W).length := by
    have := listArgmin_lt_length _ hmapne
    rwa [List.length_map] at this
  refine ⟨hlen, rfl, hjlt, ?_, ?_, ?_⟩
  · intro i hi
    have h1 := listArgmin_le_getD ((rfftfreq W).map (fun f => |f - t|)) i
      (by rwa [List.length_map])
    rwa [getD_map_of_lt _ _ _ hjlt 0 0, getD_map_of_lt _ _ _ hi 0 0] at h1
  · intro i hi
    have h1 := getD_lt_of_lt_listArgmin ((rfftfreq W).map (fun f => |f - t|)) i hi
    rwa [getD_map_of_lt _ _ _ hjlt 0 0,
      getD_map_of_lt _ _ _ (lt_trans hi hjlt) 0 0] at h1
  · show List.map _ dft = _
    refine List.map_congr_left ?_
    intro row hrow
    exact applyMask_map_decide _ _ row

/-- C4 witness: cropping the width axis of a width-4 image at target
frequency 1/4. -/
theorem c4_crop_w_spec_witness :
    ([(0 : ℚ), 1/4, 1/2].length = 4 / 2 + 1 ∧
    (_fourier_crop_w [[(1 : ℚ), 2, 3]] 4 (1/4)).2 = [(0 : ℚ), 1/4, 1/2].getD 1 0 ∧
    1 < [(0 : ℚ), 1/4, 1/2].length ∧
    (∀ i, i < [(0 : ℚ), 1/4, 1/2].length →
      |(_fourier_crop_w [[(1 : ℚ), 2, 3]] 4 (1/4)).2 - 1/4| ≤
        |[(0 : ℚ), 1/4, 1/2].getD i 0 - 1/4|) ∧
    (∀ i, i < 1 →
      |(_fourier_crop_w [[(1 : ℚ), 2, 3]] 4 (1/4)).2 - 1/4| <
        |[(0 : ℚ), 1/4, 1/2].getD i 0 - 1/4|) ∧
    (_fourier_crop_w [[(1 : ℚ), 2, 3]] 4 (1/4)).1 =
      [[(1 : ℚ), 2, 3]].map (fun row => (row.zip [(0 : ℚ), 1/4, 1/2]).filterMap
        (fun p => if p.2 ≤ (_fourier_crop_w [[(1 : ℚ), 2, 3]] 4 (1/4)).2
          then some p.1 else none))) :=
  c4_crop_w_spec [[(1 : ℚ), 2, 3]] 4 (1/4) [(0 : ℚ), 1/4, 1/2] 1
    (by with_unfolding_all decide) (by with_unfolding_all decide)

theorem crop_h_nyquist_zero (H : ℕ) (t : ℚ) (hH : 2 ≤ H) (ht0 : 0 < t)
    (ht : t < 1 / (2 * (H : ℚ))) :
    (custom_fftfreq_with_double_zero H).getD
      (listArgmin ((custom_fftfreq_with_double_zero H).map (fun f => |f - t|))) 0 = 0 := by
  have hmid : 1 ≤ H / 2 := by omega
  have hHpos : 0 < H := by omega
  have hlen : (custom_fftfreq_with_double_zero H).length = H := length_custom_fftfreq H
  have hne : custom_fftfreq_with_double_zero H ≠ [] := by
    intro h0
    rw [h0] at hlen
    simp at hlen
    omega
  have hmapne : (custom_fftfreq_with_double_zero H).map (fun f => |f - t|) ≠ [] := by
    simpa using hne
  have hjlt : listArgmin ((custom_fftfreq_with_double_zero H).map (fun f => |f - t|)) <
      (custom_fftfreq_with_double_zero H).length := by
    have := listArgmin_lt_length _ hmapne
    rwa [List.length_map] at this
  obtain ⟨i0, hi0, hi0v⟩ :=
    exists_getD_of_mem (custom_fftfreq_with_double_zero H) 0 0
      (zero_mem_custom_fftfreq H hmid)
  have h1 := listArgmin_le_getD ((custom_fftfreq_with_double_zero H).map (fun f => |f - t|))
    i0 (by rwa [List.length_map])
  rw [getD_map_of_lt _ _ _ hjlt 0 0, getD_map_of_lt _ _ _ hi0 0 0, hi0v] at h1
  have hzt : |(0 : ℚ) - t| = t := by
    rw [zero_sub, abs_neg, abs_of_pos ht0]
  rw [hzt] at h1
  by_contra hnz
  have hmem := getD_mem_of_lt (custom_fftfreq_with_double_zero H) _ hjlt 0
  rcases mem_custom_fftfreq H _ hmid hmem with h0 | hsh
  · exact hnz h0
  · have habs := one_div_le_abs_of_mem_fftfreqShifted H hHpos _ hsh hnz
    have htri := abs_sub_abs_le_abs_sub
      ((custom_fftfreq_with_double_zero H).getD
        (listArgmin ((custom_fftfreq_with_double_zero H).map (fun f => |f - t|))) 0) t
    rw [abs_of_pos ht0] at htri
    have h2H : (1 : ℚ) / (2 * (H : ℚ)) = 1 / (H : ℚ) / 2 := by
      rw [div_div, mul_comm]
    rw [h2H] at ht
    linarith

/-- C10: for every even image height `H ≥ 2` and target frequency strictly
between 0 and `1/(2H)`, the nearest-grid-value selection in
`_fourier_crop_h` lands on a duplicated zero bin, so the achieved Nyquist is
0 and the strict `|f| < 0` filter keeps no height bins: the cropped DFT is
empty.  No guard intervenes: the orchestrator passes the empty DFT on
through the width stage towards the inverse transform. -/
theorem c10_crop_h_degenerate (dft : List (List ℚ)) (H w : ℕ) (t fw : ℚ)
    (_hEven : Even H) (hH : 2 ≤ H) (ht0 : 0 < t)
    (ht : t < 1 / (2 * (H : ℚ))) :
    _fourier_crop_h dft H t = ([], 0) ∧
    (fourier_rescale_rfft_2d dft (H, w) (2 * t, 2 * fw) (1, 1)).1 = [] := by
  have hny := crop_h_nyquist_zero H t hH ht0 ht
  have hcrop : _fourier_crop_h dft H t = ([], 0) := by
    show (applyMask ((custom_fftfreq_with_double_zero H).map
        (fun f => decide (|f| < (custom_fftfreq_with_double_zero H).getD
          (listArgmin ((custom_fftfreq_with_double_zero H).map (fun f => |f - t|))) 0)))
        dft,
      (custom_fftfreq_with_double_zero H).getD
        (listArgmin ((custom_fftfreq_with_double_zero H).map (fun f => |f - t|))) 0) = ([], 0)
    rw [hny]
    refine Prod.ext ?_ rfl
    refine applyMask_of_forall_false _ dft ?_
    intro b hb
    obtain ⟨f, -, rfl⟩ := List.mem_map.1 hb
    simp [not_lt.2 (abs_nonneg f)]
  refine ⟨hcrop, ?_⟩
  have hfq1 : ((2 * t) / 1) / 2 = t := by
    rw [div_one]
    exact mul_div_cancel_left₀ t two_ne_zero
  have hHq : (2 : ℚ) ≤ (H : ℚ) := by exact_mod_cast hH
  have hhalf : ¬ ((1 : ℚ) / 2 < t) := by
    have h1 : (1 : ℚ) / (2 * (H : ℚ)) ≤ 1 / 2 := by
      apply one_div_le_one_div_of_le
      · norm_num
      · linarith
    push_neg
    linarith
  show (if (1 : ℚ) / 2 < (get_target_fftfreq (2 * t, 2 * fw) (1, 1)).2
      then _fourier_pad_w (if (1 : ℚ) / 2 < (get_target_fftfreq (2 * t, 2 * fw) (1, 1)).1
          then _fourier_pad_h dft H (get_target_fftfreq (2 * t, 2 * fw) (1, 1)).1
          else _fourier_crop_h dft H (get_target_fftfreq (2 * t, 2 * fw) (1, 1)).1).1
        w (get_target_fftfreq (2 * t, 2 * fw) (1, 1)).2
      else _fourier_crop_w (if (1 : ℚ) / 2 < (get_target_fftfreq (2 * t, 2 * fw) (1, 1)).1
          then _fourier_pad_h dft H (get_target_fftfreq (2 * t, 2 * fw) (1, 1)).1
          else _fourier_crop_h dft H (get_target_fftfreq (2 * t, 2 * fw) (1, 1)).1).1
        w (get_target_fftfreq (2 * t, 2 * fw) (1, 1)).2).1 = []
  have hfq : (get_target_fftfreq (2 * t, 2 * fw) (1, 1)).1 = t := by
    show ((2 * t) / 1) / 2 = t
    exact hfq1
  rw [hfq]
  rw [if_neg hhalf]
  rw [hcrop]
  split
  · simp [_fourier_pad_w]
  · simp [_fourier_crop_w]

/-- C10 witness: height 4, target frequency 1/10 < 1/8. -/
theorem c10_crop_h_degenerate_witness :
    _fourier_crop_h [[(1 : ℚ), 2]] 4 (1 / 10) = ([], 0) ∧
    (fourier_rescale_rfft_2d [[(1 : ℚ), 2]] (4, 3) (2 * (1 / 10), 2 * (1 / 4)) (1, 1)).1 = [] :=
  c10_crop_h_degenerate [[(1 : ℚ), 2]] 4 3 (1 / 10) (1 / 4)
    (by decide) (by decide) (by norm_num) (by norm_num)
